import Mathlib

/-!
Verification of the point-sequence generation engine of the Chaos repository:
the Hilbert index-to-coordinate mapper (`src/SpaceFillingCurves.py`) and the
chaos-game iterator with its five vertex-selection rules (`src/ChaosGame.py`).

Python integers are modelled by `Int` (or `Nat` for indices that are never
negative), Python's `%` on a positive modulus by `Int.emod` (`%` on `Int`),
`x & 3` by `x &&& 3` and `x >> 2` by `x >>> 2`.  The floating-point
coordinates of the chaos game are idealised as exact field elements; the
polygon generator's `math.cos`/`math.sin`/`round` are idealised over `ℝ`.
-/

namespace SpaceFillingCurves

/-- Source `HilbertCurve._bit_mask`: `return x & 3`. -/
def bit_mask (x : Nat) : Nat := x &&& 3

/-- Source line 56: `positions = (0, 0), (0, 1), (1, 1), (1, 0)`, indexed by
the masked two low bits of the index. -/
def positions (i : Nat) : Int × Int :=
  if i = 0 then (0, 0)
  else if i = 1 then (0, 1)
  else if i = 2 then (1, 1)
  else (1, 0)

/-- Body of the `if i == 0 / 1 / 2 / 3` chain inside the loop of
`_hilbert_curve_x2xy` (source lines 69-80), acting on the current coordinate
pair, where `n2 = n // 2`.  When `i` is none of `0,1,2,3` the source leaves
`x, y` unchanged (the chain has no `else`), which cannot happen because `i`
is masked to two bits. -/
def hilbert_step (n2 : Nat) (i : Nat) (p : Int × Int) : Int × Int :=
  if i = 0 then (p.2, p.1)
  else if i = 1 then (p.1, p.2 + (n2 : Int))
  else if i = 2 then (p.1 + (n2 : Int), p.2 + (n2 : Int))
  else if i = 3 then ((2 * (n2 : Int) - 1) - p.2, ((n2 : Int) - 1) - p.1)
  else p

/-- Source lines 65-83: the `while n <= self.N` loop of `_hilbert_curve_x2xy`.
Each pass reads the two low bits of `index`, applies `hilbert_step` with
`n2 = n // 2`, shifts `index` right by two and doubles `n`.  The loop is
modelled with explicit fuel; since `n` starts at `4` and doubles each pass,
`N + 1` units of fuel are always enough for the loop to hit its exit
condition, so the fuel never alters the computed value (see
`x2xy_loop_eq_loopG`). -/
def x2xy_loop (N : Nat) : Nat → Nat → Nat → Int × Int → Int × Int
  | 0, _, _, p => p
  | fuel + 1, n, index, p =>
    if n ≤ N then
      x2xy_loop N fuel (n * 2) (index >>> 2) (hilbert_step (n / 2) (bit_mask index) p)
    else p

/-- Source `HilbertCurve._hilbert_curve_x2xy` for a curve with grid side `N`
(`N = self.N = 2**order`): initial position from the two low bits of the
index, then the doubling loop starting at `n = 4`. -/
def hilbert_curve_x2xy (N : Nat) (index : Nat) : Int × Int :=
  x2xy_loop N (N + 1) 4 (index >>> 2) (positions (bit_mask index))

/-- Source `HilbertCurve.__init__`: `self.N = 2**order`,
`self.points = [(0, 0)]`, then `self.points.append(self._hilbert_curve_x2xy(i))`
for `i in range(self.N * self.N)`. -/
def HilbertCurve.points (order : Nat) : List (Int × Int) :=
  (0, 0) :: (List.range (2 ^ order * 2 ^ order)).map (hilbert_curve_x2xy (2 ^ order))

/-! Arithmetic forms of the bit operations. -/

theorem bit_mask_eq_mod (x : Nat) : bit_mask x = x % 4 := by
  have h4 : (4 : Nat) = 2 ^ 2 := rfl
  rw [bit_mask, h4]
  apply Nat.eq_of_testBit_eq
  intro i
  rw [Nat.testBit_land, Nat.testBit_mod_two_pow]
  rcases i with _ | _ | i
  · simp [show Nat.testBit 3 0 = true by decide]
  · simp [show Nat.testBit 3 1 = true by decide]
  · have hlt : (3 : Nat) < 2 ^ (i + 1 + 1) := by
      calc (3 : Nat) < 2 ^ 2 := by norm_num
      _ ≤ 2 ^ (i + 1 + 1) := Nat.pow_le_pow_right (by norm_num) (by omega)
    simp [Nat.testBit_lt_two_pow hlt]

theorem shiftRight_two_eq_div (x : Nat) : x >>> 2 = x / 4 := by
  rw [Nat.shiftRight_eq_div_pow]

/-- Fuel-free form of the loop that performs exactly `k` passes, used for the
structural analysis of the map. -/
def loopG : Nat → Nat → Nat → Int × Int → Int × Int
  | 0, _, _, p => p
  | k + 1, n, j, p => loopG k (n * 2) (j / 4) (hilbert_step (n / 2) (j % 4) p)

/-- When the scale `n` exceeds `N` after exactly `k` doublings and the fuel is
at least `k`, the fuelled while-loop performs exactly `k` passes. -/
theorem x2xy_loop_eq_loopG (N : Nat) :
    ∀ (k fuel n : Nat) (j : Nat) (p : Int × Int),
      (∀ m < k, n * 2 ^ m ≤ N) → N < n * 2 ^ k → k ≤ fuel →
      x2xy_loop N fuel n j p = loopG k n j p := by
  intro k
  induction k with
  | zero =>
    intro fuel n j p _ hN _
    simp only [pow_zero, mul_one] at hN
    match fuel with
    | 0 => rfl
    | fuel + 1 => simp [x2xy_loop, loopG, Nat.not_le.mpr hN]
  | succ k ih =>
    intro fuel n j p hle hN hfuel
    match fuel with
    | fuel + 1 =>
      have hn : n ≤ N := by simpa using hle 0 (Nat.succ_pos k)
      simp only [x2xy_loop, if_pos hn, loopG, bit_mask_eq_mod, shiftRight_two_eq_div]
      exact ih fuel (n * 2) (j / 4) _
        (fun m hm => by
          have := hle (m + 1) (by omega)
          simpa [pow_succ, Nat.mul_comm, Nat.mul_assoc, Nat.mul_left_comm] using this)
        (by
          have : n * 2 ^ (k + 1) = n * 2 * 2 ^ k := by ring
          omega)
        (by omega)

/-- Peeling the last (most significant) pass off `loopG`: `k+1` passes starting
at scale `2^(m+2)` are the first `k` passes on the low base-4 digits followed by
one `hilbert_step` at half of the final scale, keyed by the top digit. -/
theorem loopG_peel :
    ∀ (k m : Nat) (j : Nat) (p : Int × Int),
      loopG (k + 1) (2 ^ (m + 2)) j p =
        hilbert_step (2 ^ (m + k + 1)) (j / 4 ^ k % 4) (loopG k (2 ^ (m + 2)) (j % 4 ^ k) p) := by
  intro k
  induction k with
  | zero =>
    intro m j p
    have h2 : 2 ^ (m + 2) / 2 = 2 ^ (m + 1) := by
      rw [pow_succ]
      exact Nat.mul_div_cancel _ (by norm_num)
    simp [loopG, h2]
  | succ k ih =>
    intro m j p
    have hmul : 2 ^ (m + 2) * 2 = 2 ^ (m + 1 + 2) := by ring
    have hdiv2 : 2 ^ (m + 2) / 2 = 2 ^ (m + 1) := by
      rw [pow_succ]
      exact Nat.mul_div_cancel _ (by norm_num)
    have hL : loopG (k + 1 + 1) (2 ^ (m + 2)) j p =
        loopG (k + 1) (2 ^ (m + 1 + 2)) (j / 4) (hilbert_step (2 ^ (m + 1)) (j % 4) p) := by
      simp [loopG, hmul, hdiv2]
    rw [hL, ih (m + 1) (j / 4) _]
    have e1 : (j % 4 ^ (k + 1)) % 4 = j % 4 :=
      Nat.mod_mod_of_dvd j (dvd_pow_self 4 (Nat.succ_ne_zero k))
    have e2 : (j % 4 ^ (k + 1)) / 4 = (j / 4) % 4 ^ k := by
      rw [pow_succ']
      exact Nat.mod_mul_right_div_self j 4 (4 ^ k)
    have e3 : (j / 4) / 4 ^ k = j / 4 ^ (k + 1) := by
      rw [Nat.div_div_eq_div_mul, pow_succ']
    have e4 : m + 1 + k + 1 = m + (k + 1) + 1 := by omega
    have hR : loopG (k + 1) (2 ^ (m + 2)) (j % 4 ^ (k + 1)) p =
        loopG k (2 ^ (m + 1 + 2)) ((j / 4) % 4 ^ k) (hilbert_step (2 ^ (m + 1)) (j % 4) p) := by
      simp [loopG, hmul, hdiv2, e1, e2]
    rw [hR, e3, e4]

/-- Structured form of the index-to-coordinate map for a curve of the given
order: the first `order - 1` passes of the loop on the shifted index. -/
def Hmap (order : Nat) (j : Nat) : Int × Int :=
  loopG (order - 1) 4 (j / 4) (positions (j % 4))

/-- For `N = 2^order` the fuelled source loop computes `Hmap`. -/
theorem hilbert_curve_x2xy_eq_Hmap (order : Nat) (j : Nat) :
    hilbert_curve_x2xy (2 ^ order) j = Hmap order j := by
  rw [hilbert_curve_x2xy, Hmap, bit_mask_eq_mod, shiftRight_two_eq_div]
  rcases order with _ | ord
  · exact x2xy_loop_eq_loopG 1 0 _ 4 _ _ (by omega) (by norm_num) (by norm_num)
  · refine x2xy_loop_eq_loopG _ (ord + 1 - 1) _ 4 _ _ ?_ ?_ (by
      have := Nat.lt_two_pow (ord + 1)
      omega)
    · intro m hm
      have h1 : 4 * 2 ^ m = 2 ^ (m + 2) := by ring
      have h2 : m + 2 ≤ ord + 1 := by omega
      rw [h1]
      exact Nat.pow_le_pow_right (by norm_num) h2
    · have h1 : 4 * 2 ^ (ord + 1 - 1) = 2 ^ (ord + 2) := by
        have : ord + 1 - 1 = ord := by omega
        rw [this]; ring
      rw [h1]
      exact Nat.pow_lt_pow_right (by norm_num) (by omega)

/-- Recursion of `Hmap` on the order: the map of order `ord+1` applies one
`hilbert_step` at scale `2^ord`, keyed by the top base-4 digit, to the
order-`ord` map of the low digits. -/
theorem Hmap_succ (ord : Nat) (hord : 1 ≤ ord) (j : Nat) :
    Hmap (ord + 1) j = hilbert_step (2 ^ ord) (j / 4 ^ ord % 4) (Hmap ord (j % 4 ^ ord)) := by
  obtain ⟨k, rfl⟩ : ∃ k, ord = k + 1 := ⟨ord - 1, by omega⟩
  have hL : Hmap (k + 1 + 1) j = loopG (k + 1) 4 (j / 4) (positions (j % 4)) := by
    have h0 : k + 1 + 1 - 1 = k + 1 := by omega
    rw [Hmap, h0]
  have hpeel := loopG_peel k 0 (j / 4) (positions (j % 4))
  norm_num at hpeel
  rw [hL, hpeel]
  have hps : (4 : Nat) ^ (k + 1) = 4 * 4 ^ k := by
    rw [pow_succ]
    ring
  have e1 : j / 4 / 4 ^ k = j / 4 ^ (k + 1) := by
    rw [Nat.div_div_eq_div_mul, hps]
  have e2 : (j % 4 ^ (k + 1)) % 4 = j % 4 :=
    Nat.mod_mod_of_dvd j (dvd_pow_self 4 (by omega))
  have e3 : (j % 4 ^ (k + 1)) / 4 = (j / 4) % 4 ^ k := by
    rw [hps]
    exact Nat.mod_mul_right_div_self j 4 (4 ^ k)
  have hR : Hmap (k + 1) (j % 4 ^ (k + 1)) =
      loopG k 4 ((j / 4) % 4 ^ k) (positions (j % 4)) := by
    have h5 : k + 1 - 1 = k := by omega
    rw [Hmap, h5, e2, e3]
  rw [hR, e1]

/-- Coordinates lie in the half-open square grid of the given side. -/
def inGrid (s : Nat) (p : Int × Int) : Prop :=
  0 ≤ p.1 ∧ p.1 < (s : Int) ∧ 0 ≤ p.2 ∧ p.2 < (s : Int)

theorem hilbert_step_mem (s : Nat) (hs : 1 ≤ s) (d : Nat) (hd : d < 4)
    (p : Int × Int) (hp : inGrid s p) : inGrid (2 * s) (hilbert_step s d p) := by
  obtain ⟨h1, h2, h3, h4⟩ := hp
  interval_cases d <;>
    (norm_num [hilbert_step, inGrid]
     push_cast
     omega)

/-- Distinct digits send grid points to disjoint quadrants of the doubled
grid, so the images never coincide. -/
theorem hilbert_step_digit_inj (s : Nat) (hs : 1 ≤ s) (d d' : Nat)
    (hd : d < 4) (hd' : d' < 4) (p q : Int × Int) (hp : inGrid s p) (hq : inGrid s q)
    (h : hilbert_step s d p = hilbert_step s d' q) : d = d' := by
  obtain ⟨h1, h2, h3, h4⟩ := hp
  obtain ⟨g1, g2, g3, g4⟩ := hq
  have hx := congrArg Prod.fst h
  have hy := congrArg Prod.snd h
  interval_cases d <;> interval_cases d' <;> first
    | rfl
    | (exfalso
       norm_num [hilbert_step] at hx hy
       omega)

theorem hilbert_step_inj (s : Nat) (d : Nat) (hd : d < 4) (p q : Int × Int)
    (hp : inGrid s p) (hq : inGrid s q)
    (h : hilbert_step s d p = hilbert_step s d q) : p = q := by
  obtain ⟨h1, h2, h3, h4⟩ := hp
  obtain ⟨g1, g2, g3, g4⟩ := hq
  have hx := congrArg Prod.fst h
  have hy := congrArg Prod.snd h
  interval_cases d <;>
    (norm_num [hilbert_step] at hx hy
     apply Prod.ext <;> omega)

/-- Core bijectivity result: for every positive order, `Hmap` maps
`[0, 4^order)` injectively into the `2^order` grid. -/
theorem Hmap_bijective (ord : Nat) (hord : 1 ≤ ord) :
    (∀ j < 4 ^ ord, inGrid (2 ^ ord) (Hmap ord j)) ∧
    (∀ j < 4 ^ ord, ∀ j' < 4 ^ ord, Hmap ord j = Hmap ord j' → j = j') := by
  induction ord with
  | zero => omega
  | succ ord ih =>
    rcases Nat.eq_or_lt_of_le hord with h1 | h1
    · have h0 : ord = 0 := by omega
      subst h0
      have hbase : ∀ i, Hmap 1 i = positions (i % 4) := fun i => rfl
      constructor
      · intro j hj
        norm_num at hj
        rw [hbase j, Nat.mod_eq_of_lt (by omega)]
        interval_cases j <;> simp [positions, inGrid]
      · intro j hj j' hj' heq
        norm_num at hj hj'
        rw [hbase j, hbase j', Nat.mod_eq_of_lt (by omega), Nat.mod_eq_of_lt (by omega)] at heq
        interval_cases j <;> interval_cases j' <;> first
          | rfl
          | (exfalso; revert heq; decide)
    · have hord' : 1 ≤ ord := by omega
      obtain ⟨ihMem, ihInj⟩ := ih hord'
      have hs : 1 ≤ 2 ^ ord := Nat.one_le_two_pow
      have hpow : (4 : Nat) ^ (ord + 1) = 4 ^ ord * 4 := pow_succ 4 ord
      constructor
      · intro j hj
        rw [Hmap_succ ord hord' j]
        have hmem := ihMem (j % 4 ^ ord) (Nat.mod_lt _ (by positivity))
        have := hilbert_step_mem (2 ^ ord) hs (j / 4 ^ ord % 4) (Nat.mod_lt _ (by norm_num)) _ hmem
        have h2 : 2 * 2 ^ ord = 2 ^ (ord + 1) := by ring
        rwa [h2] at this
      · intro j hj j' hj' heq
        rw [Hmap_succ ord hord' j, Hmap_succ ord hord' j'] at heq
        have hm := ihMem (j % 4 ^ ord) (Nat.mod_lt _ (by positivity))
        have hm' := ihMem (j' % 4 ^ ord) (Nat.mod_lt _ (by positivity))
        have hdig : j / 4 ^ ord % 4 = j' / 4 ^ ord % 4 :=
          hilbert_step_digit_inj (2 ^ ord) hs _ _ (Nat.mod_lt _ (by norm_num))
            (Nat.mod_lt _ (by norm_num)) _ _ hm hm' heq
        rw [hdig] at heq
        have hrec : Hmap ord (j % 4 ^ ord) = Hmap ord (j' % 4 ^ ord) :=
          hilbert_step_inj (2 ^ ord) _ (Nat.mod_lt _ (by norm_num)) _ _ hm hm' heq
        have hmod : j % 4 ^ ord = j' % 4 ^ ord :=
          ihInj _ (Nat.mod_lt _ (by positivity)) _ (Nat.mod_lt _ (by positivity)) hrec
        have hdivlt : j / 4 ^ ord < 4 := Nat.div_lt_of_lt_mul (by omega)
        have hdivlt' : j' / 4 ^ ord < 4 := Nat.div_lt_of_lt_mul (by omega)
        have hdiv : j / 4 ^ ord = j' / 4 ^ ord := by
          rwa [Nat.mod_eq_of_lt hdivlt, Nat.mod_eq_of_lt hdivlt'] at hdig
        calc j = 4 ^ ord * (j / 4 ^ ord) + j % 4 ^ ord := (Nat.div_add_mod j (4 ^ ord)).symm
        _ = 4 ^ ord * (j' / 4 ^ ord) + j' % 4 ^ ord := by rw [hdiv, hmod]
        _ = j' := Nat.div_add_mod j' (4 ^ ord)

/-- List of the mapped points for indices `0 .. N*N - 1`, as built by the
constructor loop. -/
theorem hilbert_list_nodup (n : Nat) (hn : 1 ≤ n) :
    ((List.range (2 ^ n * 2 ^ n)).map (hilbert_curve_x2xy (2 ^ n))).Nodup := by
  have hMM : 2 ^ n * 2 ^ n = 4 ^ n := by
    rw [show (4 : Nat) = 2 * 2 from rfl, mul_pow]
  obtain ⟨-, hinj⟩ := Hmap_bijective n hn
  rw [hMM]
  refine List.Nodup.map_on ?_ (List.nodup_range _)
  intro i hi i' hi' hf
  rw [List.mem_range] at hi hi'
  rw [hilbert_curve_x2xy_eq_Hmap, hilbert_curve_x2xy_eq_Hmap] at hf
  exact hinj i hi i' hi' hf

theorem hilbert_list_grid (n : Nat) (hn : 1 ≤ n) :
    ∀ p ∈ (List.range (2 ^ n * 2 ^ n)).map (hilbert_curve_x2xy (2 ^ n)),
      0 ≤ p.1 ∧ p.1 < (2 ^ n : Int) ∧ 0 ≤ p.2 ∧ p.2 < (2 ^ n : Int) := by
  have hMM : 2 ^ n * 2 ^ n = 4 ^ n := by
    rw [show (4 : Nat) = 2 * 2 from rfl, mul_pow]
  obtain ⟨hmem, -⟩ := Hmap_bijective n hn
  intro p hp
  rw [List.mem_map] at hp
  obtain ⟨i, hi, rfl⟩ := hp
  rw [List.mem_range, hMM] at hi
  rw [hilbert_curve_x2xy_eq_Hmap]
  have := hmem i hi
  obtain ⟨a, b, c, d⟩ := this
  push_cast at b d ⊢
  exact ⟨a, b, c, d⟩

theorem hilbert_list_cover (n : Nat) (hn : 1 ≤ n) :
    ∀ x y : Int, 0 ≤ x → x < (2 ^ n : Int) → 0 ≤ y → y < (2 ^ n : Int) →
      (x, y) ∈ (List.range (2 ^ n * 2 ^ n)).map (hilbert_curve_x2xy (2 ^ n)) := by
  intro x y hx1 hx2 hy1 hy2
  set l := (List.range (2 ^ n * 2 ^ n)).map (hilbert_curve_x2xy (2 ^ n)) with hl
  set S := Finset.Ico (0 : Int) (2 ^ n) ×ˢ Finset.Ico (0 : Int) (2 ^ n) with hS
  have hsub : l.toFinset ⊆ S := by
    intro p hp
    rw [List.mem_toFinset] at hp
    obtain ⟨a, b, c, d⟩ := hilbert_list_grid n hn p hp
    rw [hS, Finset.mem_product, Finset.mem_Ico, Finset.mem_Ico]
    exact ⟨⟨a, by exact_mod_cast b⟩, ⟨c, by exact_mod_cast d⟩⟩
  have htoNat : ((2 : Int) ^ n).toNat = 2 ^ n := by
    rw [show ((2 : Int) ^ n) = ((2 ^ n : Nat) : Int) by push_cast; ring, Int.toNat_natCast]
  have hcardS : S.card = 2 ^ n * 2 ^ n := by
    rw [hS, Finset.card_product, Int.card_Ico]
    norm_num [htoNat]
  have hcardl : l.toFinset.card = 2 ^ n * 2 ^ n := by
    rw [List.toFinset_card_of_nodup (hilbert_list_nodup n hn), List.length_map,
      List.length_range]
  have heq : l.toFinset = S := Finset.eq_of_subset_of_card_le hsub (by omega)
  have hmemS : (x, y) ∈ S := by
    rw [hS, Finset.mem_product, Finset.mem_Ico, Finset.mem_Ico]
    exact ⟨⟨hx1, by exact_mod_cast hx2⟩, ⟨hy1, by exact_mod_cast hy2⟩⟩
  rw [← heq, List.mem_toFinset] at hmemS
  exact hmemS

/-- C1: for every order `n ≥ 1` with `N = 2^n`, the Hilbert index-to-coordinate
mapping restricted to indices `0..N^2-1` is a bijection onto the `N × N` grid:
the `N^2` computed coordinate pairs are pairwise distinct and every pair
`(x, y)` satisfies `0 ≤ x < N` and `0 ≤ y < N`. -/
theorem C1_hilbert_bijection (n : Nat) (hn : 1 ≤ n) :
    ((List.range (2 ^ n * 2 ^ n)).map (hilbert_curve_x2xy (2 ^ n))).Nodup ∧
    ∀ p ∈ (List.range (2 ^ n * 2 ^ n)).map (hilbert_curve_x2xy (2 ^ n)),
      0 ≤ p.1 ∧ p.1 < (2 ^ n : Int) ∧ 0 ≤ p.2 ∧ p.2 < (2 ^ n : Int) :=
  ⟨hilbert_list_nodup n hn, hilbert_list_grid n hn⟩

/-- Witness for C1 at order 1. -/
theorem C1_hilbert_bijection_witness :
    1 ≤ 1 ∧
    (((List.range (2 ^ 1 * 2 ^ 1)).map (hilbert_curve_x2xy (2 ^ 1))).Nodup ∧
    ∀ p ∈ (List.range (2 ^ 1 * 2 ^ 1)).map (hilbert_curve_x2xy (2 ^ 1)),
      0 ≤ p.1 ∧ p.1 < (2 ^ 1 : Int) ∧ 0 ≤ p.2 ∧ p.2 < (2 ^ 1 : Int)) :=
  ⟨by norm_num, C1_hilbert_bijection 1 (by norm_num)⟩

/-- C2 as stated is false: the table of `N^2 + 1` points repeats a coordinate
pair, because the prepended origin `(0, 0)` at position 0 equals the computed
point for index 0 at position 1 (for order 1 here). -/
theorem C2_counterexample :
    (HilbertCurve.points 1).getD 0 (0, 0) = (HilbertCurve.points 1).getD 1 (0, 0) ∧
    (0 : Nat) ≠ 1 ∧ (HilbertCurve.points 1).length = 2 ^ 1 * 2 ^ 1 + 1 := by
  refine ⟨by decide, by norm_num, by decide⟩

/-- C2 amended: positions `1 .. N^2` of the `CurvePointTable` (the computed
points) enumerate every cell of the `N × N` grid exactly once — they are
pairwise distinct and every cell occurs among them; the only repetition in the
full table is the prepended origin at position 0, which duplicates the
computed point for index 0. -/
theorem C2_curve_point_table (order : Nat) (h : 1 ≤ order) :
    ((HilbertCurve.points order).drop 1).Nodup ∧
    (∀ x y : Int, 0 ≤ x → x < (2 ^ order : Int) → 0 ≤ y → y < (2 ^ order : Int) →
      (x, y) ∈ (HilbertCurve.points order).drop 1) ∧
    (HilbertCurve.points order).getD 0 (0, 0) = (HilbertCurve.points order).getD 1 (0, 0) := by
  have hdrop : (HilbertCurve.points order).drop 1 =
      (List.range (2 ^ order * 2 ^ order)).map (hilbert_curve_x2xy (2 ^ order)) := rfl
  refine ⟨hdrop ▸ hilbert_list_nodup order h, ?_, ?_⟩
  · intro x y hx1 hx2 hy1 hy2
    rw [hdrop]
    exact hilbert_list_cover order h x y hx1 hx2 hy1 hy2
  · have h0 : (HilbertCurve.points order).getD 0 (0, 0) = (0, 0) := rfl
    have hpos : 0 < 2 ^ order * 2 ^ order := by positivity
    have h1 : (HilbertCurve.points order).getD 1 (0, 0) =
        hilbert_curve_x2xy (2 ^ order) 0 := by
      rw [HilbertCurve.points]
      rw [List.getD_cons_succ]
      rw [List.getD_eq_getElem?_getD]
      rw [List.getElem?_map]
      rw [List.getElem?_range hpos]
      rfl
    rw [h0, h1, hilbert_curve_x2xy_eq_Hmap]
    have hz : ∀ (k n : Nat), loopG k n 0 (0, 0) = (0, 0) := by
      intro k
      induction k with
      | zero => intro n; rfl
      | succ k ih =>
        intro n
        have hstep : hilbert_step (n / 2) 0 ((0 : Int), (0 : Int)) = (0, 0) := by
          simp [hilbert_step]
        calc loopG (k + 1) n 0 (0, 0)
            = loopG k (n * 2) 0 (hilbert_step (n / 2) 0 (0, 0)) := rfl
        _ = loopG k (n * 2) 0 (0, 0) := by rw [hstep]
        _ = (0, 0) := ih (n * 2)
    have : Hmap order 0 = loopG (order - 1) 4 0 (positions 0) := rfl
    rw [this, show positions 0 = ((0 : Int), (0 : Int)) from rfl, hz]

/-- Witness for C2 at order 1. -/
theorem C2_curve_point_table_witness :
    1 ≤ 1 ∧
    (((HilbertCurve.points 1).drop 1).Nodup ∧
    (∀ x y : Int, 0 ≤ x → x < (2 ^ 1 : Int) → 0 ≤ y → y < (2 ^ 1 : Int) →
      (x, y) ∈ (HilbertCurve.points 1).drop 1) ∧
    (HilbertCurve.points 1).getD 0 (0, 0) = (HilbertCurve.points 1).getD 1 (0, 0)) :=
  ⟨by norm_num, C2_curve_point_table 1 (by norm_num)⟩

end SpaceFillingCurves

namespace ChaosGame

/-!
Model of `src/ChaosGame.py`.  Coordinates are elements of a commutative ring
`α` (instantiated at `ℚ` for executable checks and at `ℝ` when the generated
polygon is involved), idealising Python floats.  The library random source is
modelled by an explicit list of the successive values returned by
`random.randint(0, shape - 1)`: every call pops the head of the list, and a
run that exhausts the list is `none` (in Python it would block waiting for
more randomness; `randint` itself never fails).  Each `_rX_play` method keeps
its selection history in local variables re-created per call, so the model's
per-call functions return only the freshly appended points, the chosen vertex
indices (instrumentation, cf. spec section 8) and the unconsumed samples.
-/

variable {α : Type} [CommRing α]

/-- Source `ChaosGame._get_mid_point` (lines 70-82):
`x_mid = (point_a[0] + point_b[0]) * self.ratio` and likewise for `y`. -/
def get_mid_point ( ratio : α) (point_a point_b : α × α) : α × α :=
  ((point_a.1 + point_b.1) * ratio, (point_a.2 + point_b.2) * ratio)

/-- One call of `self.random.randint(0, self.shape - 1)`: pop the next value
of the random stream. -/
def sample : List Int → Option (Int × List Int)
  | [] => none
  | r :: rest => some (r, rest)

/-- Source pattern `random_index = randint(...)` followed by
`while bad(random_index): random_index = randint(...)`: keep popping the
stream until a value fails the `bad` test. -/
def rejectionSample (bad : Int → Bool) : List Int → Option (Int × List Int)
  | [] => none
  | r :: rest => if bad r then rejectionSample bad rest else some (r, rest)

/-- Source `self.vertices[random_index]`; `randint(0, shape - 1)` only
produces values in `[0, shape)`, for which this is plain list indexing. -/
def vertex_at (vertices : List (α × α)) (idx : Int) : α × α :=
  vertices.getD idx.toNat (0, 0)

/-- Rule r1 rejection test (source line 129): `random_index == prev_index`. -/
def r1_forbidden (prev_index : Int) (idx : Int) : Bool :=
  idx == prev_index

/-- Rule r2/r3 rejection test (source lines 154-158):
`random_index == (prev_index + 1) % self.shape` when `clockwise` (rule r3),
else `random_index == (prev_index - 1) % self.shape` (rule r2). -/
def r2_forbidden (shape : Int) (clockwise : Bool) (prev_index : Int) (idx : Int) : Bool :=
  if clockwise then idx == (prev_index + 1) % shape
  else idx == (prev_index - 1) % shape

/-- Rule r4 rejection test (source lines 181-182): only applied when
`prev[-1] == prev[-2]`, and then rejects
`random_index == (prev[-1] - 1) % self.shape or random_index == (prev[-1] + 1) % self.shape`. -/
def r4_forbidden (shape : Int) (prev2 prev1 : Int) (idx : Int) : Bool :=
  if prev1 == prev2 then
    idx == (prev1 - 1) % shape || idx == (prev1 + 1) % shape
  else false

/-- Loop body of `_r0_play` (source lines 106-113): each pass samples an
index, reads the vertex, appends the scaled-sum midpoint and continues from
it. -/
def r0_loop (shape : Int) ( ratio : α) (vertices : List (α × α)) :
    Nat → α × α → List Int → Option (List (α × α) × List Int × List Int)
  | 0, _, rands => some ([], [], rands)
  | iters + 1, new_point, rands =>
    match sample rands with
    | none => none
    | some (random_index, rest) =>
      let p := get_mid_point ratio new_point (vertex_at vertices random_index)
      match r0_loop shape ratio vertices iters p rest with
      | none => none
      | some (pts, cs, rest2) => some (p :: pts, random_index :: cs, rest2)

/-- Source `_r0_play`: `new_point = self.start` then the loop. -/
def r0_play (shape : Int) ( ratio : α) (vertices : List (α × α)) (start : α × α)
    (iterations : Nat) (rands : List Int) :
    Option (List (α × α) × List Int × List Int) :=
  r0_loop shape ratio vertices iterations start rands

/-- Loop body of `_r1_play` (source lines 126-137), carrying `prev_index`. -/
def r1_loop (shape : Int) ( ratio : α) (vertices : List (α × α)) :
    Nat → α × α → Int → List Int → Option (List (α × α) × List Int × List Int)
  | 0, _, _, rands => some ([], [], rands)
  | iters + 1, new_point, prev_index, rands =>
    match rejectionSample (r1_forbidden prev_index) rands with
    | none => none
    | some (random_index, rest) =>
      let p := get_mid_point ratio new_point (vertex_at vertices random_index)
      match r1_loop shape ratio vertices iters p random_index rest with
      | none => none
      | some (pts, cs, rest2) => some (p :: pts, random_index :: cs, rest2)

/-- Source `_r1_play`: `new_point = self.start`, then
`random_index, prev_index = randint(...), -2` (one sample is drawn and
immediately discarded), then the loop. -/
def r1_play (shape : Int) ( ratio : α) (vertices : List (α × α)) (start : α × α)
    (iterations : Nat) (rands : List Int) :
    Option (List (α × α) × List Int × List Int) :=
  match sample rands with
  | none => none
  | some (_, rest) => r1_loop shape ratio vertices iterations start (-2) rest

/-- Loop body of `_r2_play` (source lines 151-166), carrying `prev_index`;
`clockwise` selects the r3 variant. -/
def r2_loop (shape : Int) (clockwise : Bool) ( ratio : α) (vertices : List (α × α)) :
    Nat → α × α → Int → List Int → Option (List (α × α) × List Int × List Int)
  | 0, _, _, rands => some ([], [], rands)
  | iters + 1, new_point, prev_index, rands =>
    match rejectionSample (r2_forbidden shape clockwise prev_index) rands with
    | none => none
    | some (random_index, rest) =>
      let p := get_mid_point ratio new_point (vertex_at vertices random_index)
      match r2_loop shape clockwise ratio vertices iters p random_index rest with
      | none => none
      | some (pts, cs, rest2) => some (p :: pts, random_index :: cs, rest2)

/-- Source `_r2_play(iterations, clockwise=False)`: `new_point = self.start`,
`random_index, prev_index = randint(...), -2` (one discarded sample), then
the loop. -/
def r2_play (shape : Int) (clockwise : Bool) ( ratio : α) (vertices : List (α × α))
    (start : α × α) (iterations : Nat) (rands : List Int) :
    Option (List (α × α) × List Int × List Int) :=
  match sample rands with
  | none => none
  | some (_, rest) => r2_loop shape clockwise ratio vertices iterations start (-2) rest

/-- Loop body of `_r4_play` (source lines 178-190), carrying the last two
chosen indices `prev = [prev2, prev1]`. -/
def r4_loop (shape : Int) ( ratio : α) (vertices : List (α × α)) :
    Nat → α × α → Int → Int → List Int → Option (List (α × α) × List Int × List Int)
  | 0, _, _, _, rands => some ([], [], rands)
  | iters + 1, new_point, prev2, prev1, rands =>
    match rejectionSample (r4_forbidden shape prev2 prev1) rands with
    | none => none
    | some (random_index, rest) =>
      let p := get_mid_point ratio new_point (vertex_at vertices random_index)
      match r4_loop shape ratio vertices iters p prev1 random_index rest with
      | none => none
      | some (pts, cs, rest2) => some (p :: pts, random_index :: cs, rest2)

/-- Source `_r4_play`: `new_point = self.start`, `prev = [-2, -1]`, then the
loop. -/
def r4_play (shape : Int) ( ratio : α) (vertices : List (α × α)) (start : α × α)
    (iterations : Nat) (rands : List Int) :
    Option (List (α × α) × List Int × List Int) :=
  r4_loop shape ratio vertices iterations start (-2) (-1) rands

/-- Source `ChaosGame.play` (lines 192-212): string-keyed `if/elif` dispatch
on `self.rule`; `"r3"` runs `_r2_play(iterations, clockwise=True)`.  The
chain has no final `else`, so an unrecognized rule falls through, appends no
point and raises no error. -/
def play (rule : String) (shape : Int) ( ratio : α) (vertices : List (α × α))
    (start : α × α) (iterations : Nat) (rands : List Int) :
    Option (List (α × α) × List Int × List Int) :=
  if rule = "r0" then r0_play shape ratio vertices start iterations rands
  else if rule = "r1" then r1_play shape ratio vertices start iterations rands
  else if rule = "r2" then r2_play shape false ratio vertices start iterations rands
  else if rule = "r3" then r2_play shape true ratio vertices start iterations rands
  else if rule = "r4" then r4_play shape ratio vertices start iterations rands
  else some ([], [], rands)

/-! Run analysis: what a successful `play` run looks like as a function of the
chosen-index trace. -/

theorem getD_cons_pred {β : Type} (p : β) (l : List β) (d : β) (t : Nat) :
    (p :: l).getD t d = if t = 0 then p else l.getD (t - 1) d := by
  cases t <;> simp

theorem rejectionSample_not_bad (bad : Int → Bool) :
    ∀ (rands : List Int) (c : Int) (rest : List Int),
      rejectionSample bad rands = some (c, rest) → bad c = false := by
  intro rands
  induction rands with
  | nil => intro c rest h; simp [rejectionSample] at h
  | cons r rrest ih =>
    intro c rest h
    by_cases hb : bad r
    · rw [rejectionSample, if_pos hb] at h
      exact ih c rest h
    · rw [rejectionSample, if_neg hb] at h
      simp only [Option.some.injEq, Prod.mk.injEq] at h
      obtain ⟨rfl, -⟩ := h
      exact Bool.of_not_eq_true hb

theorem r0_loop_spec (shape : Int) ( ratio : α) (vertices : List (α × α)) :
    ∀ (iters : Nat) (cur : α × α) (rands : List Int)
      (pts : List (α × α)) (cs rest : List Int),
      r0_loop shape ratio vertices iters cur rands = some (pts, cs, rest) →
      pts.length = iters ∧ cs.length = iters ∧
      ∀ t < iters,
        pts.getD t (0, 0) =
          get_mid_point ratio (if t = 0 then cur else pts.getD (t - 1) (0, 0))
            (vertex_at vertices (cs.getD t 0)) := by
  intro iters
  induction iters with
  | zero =>
    intro cur rands pts cs rest h
    simp only [r0_loop, Option.some.injEq, Prod.mk.injEq] at h
    obtain ⟨rfl, rfl, rfl⟩ := h
    exact ⟨rfl, rfl, fun t ht => absurd ht (Nat.not_lt_zero t)⟩
  | succ iters ih =>
    intro cur rands pts cs rest h
    cases rands with
    | nil => simp [r0_loop, sample] at h
    | cons r rrest =>
      simp only [r0_loop, sample] at h
      rcases hrec : r0_loop shape ratio vertices iters
          (get_mid_point ratio cur (vertex_at vertices r)) rrest with _ | ⟨pts', cs', rest'⟩
      · simp [hrec] at h
      · simp only [hrec, Option.some.injEq, Prod.mk.injEq] at h
        obtain ⟨rfl, rfl, rfl⟩ := h
        obtain ⟨hl, hcl, hrel⟩ := ih _ rrest pts' cs' _ hrec
        refine ⟨by simp [hl], by simp [hcl], ?_⟩
        intro t ht
        cases t with
        | zero => simp [List.getD_cons_zero]
        | succ t =>
          have hrt := hrel t (by omega)
          simp only [List.getD_cons_succ, Nat.succ_ne_zero, if_false, Nat.succ_sub_one]
          rw [hrt, getD_cons_pred]

theorem r1_loop_spec (shape : Int) ( ratio : α) (vertices : List (α × α)) :
    ∀ (iters : Nat) (cur : α × α) (prev : Int) (rands : List Int)
      (pts : List (α × α)) (cs rest : List Int),
      r1_loop shape ratio vertices iters cur prev rands = some (pts, cs, rest) →
      pts.length = iters ∧ cs.length = iters ∧
      ∀ t < iters,
        pts.getD t (0, 0) =
          get_mid_point ratio (if t = 0 then cur else pts.getD (t - 1) (0, 0))
            (vertex_at vertices (cs.getD t 0)) := by
  intro iters
  induction iters with
  | zero =>
    intro cur prev rands pts cs rest h
    simp only [r1_loop, Option.some.injEq, Prod.mk.injEq] at h
    obtain ⟨rfl, rfl, rfl⟩ := h
    exact ⟨rfl, rfl, fun t ht => absurd ht (Nat.not_lt_zero t)⟩
  | succ iters ih =>
    intro cur prev rands pts cs rest h
    simp only [r1_loop] at h
    rcases hs : rejectionSample (r1_forbidden prev) rands with _ | ⟨r, rrest⟩
    · simp [hs] at h
    · simp only [hs] at h
      rcases hrec : r1_loop shape ratio vertices iters
          (get_mid_point ratio cur (vertex_at vertices r)) r rrest with _ | ⟨pts', cs', rest'⟩
      · simp [hrec] at h
      · simp only [hrec, Option.some.injEq, Prod.mk.injEq] at h
        obtain ⟨rfl, rfl, rfl⟩ := h
        obtain ⟨hl, hcl, hrel⟩ := ih _ r rrest pts' cs' _ hrec
        refine ⟨by simp [hl], by simp [hcl], ?_⟩
        intro t ht
        cases t with
        | zero => simp [List.getD_cons_zero]
        | succ t =>
          have hrt := hrel t (by omega)
          simp only [List.getD_cons_succ, Nat.succ_ne_zero, if_false, Nat.succ_sub_one]
          rw [hrt, getD_cons_pred]

theorem r2_loop_spec (shape : Int) (clockwise : Bool) ( ratio : α) (vertices : List (α × α)) :
    ∀ (iters : Nat) (cur : α × α) (prev : Int) (rands : List Int)
      (pts : List (α × α)) (cs rest : List Int),
      r2_loop shape clockwise ratio vertices iters cur prev rands = some (pts, cs, rest) →
      pts.length = iters ∧ cs.length = iters ∧
      ∀ t < iters,
        pts.getD t (0, 0) =
          get_mid_point ratio (if t = 0 then cur else pts.getD (t - 1) (0, 0))
            (vertex_at vertices (cs.getD t 0)) := by
  intro iters
  induction iters with
  | zero =>
    intro cur prev rands pts cs rest h
    simp only [r2_loop, Option.some.injEq, Prod.mk.injEq] at h
    obtain ⟨rfl, rfl, rfl⟩ := h
    exact ⟨rfl, rfl, fun t ht => absurd ht (Nat.not_lt_zero t)⟩
  | succ iters ih =>
    intro cur prev rands pts cs rest h
    simp only [r2_loop] at h
    rcases hs : rejectionSample (r2_forbidden shape clockwise prev) rands with _ | ⟨r, rrest⟩
    · simp [hs] at h
    · simp only [hs] at h
      rcases hrec : r2_loop shape clockwise ratio vertices iters
          (get_mid_point ratio cur (vertex_at vertices r)) r rrest with _ | ⟨pts', cs', rest'⟩
      · simp [hrec] at h
      · simp only [hrec, Option.some.injEq, Prod.mk.injEq] at h
        obtain ⟨rfl, rfl, rfl⟩ := h
        obtain ⟨hl, hcl, hrel⟩ := ih _ r rrest pts' cs' _ hrec
        refine ⟨by simp [hl], by simp [hcl], ?_⟩
        intro t ht
        cases t with
        | zero => simp [List.getD_cons_zero]
        | succ t =>
          have hrt := hrel t (by omega)
          simp only [List.getD_cons_succ, Nat.succ_ne_zero, if_false, Nat.succ_sub_one]
          rw [hrt, getD_cons_pred]

theorem r4_loop_spec (shape : Int) ( ratio : α) (vertices : List (α × α)) :
    ∀ (iters : Nat) (cur : α × α) (prev2 prev1 : Int) (rands : List Int)
      (pts : List (α × α)) (cs rest : List Int),
      r4_loop shape ratio vertices iters cur prev2 prev1 rands = some (pts, cs, rest) →
      pts.length = iters ∧ cs.length = iters ∧
      ∀ t < iters,
        pts.getD t (0, 0) =
          get_mid_point ratio (if t = 0 then cur else pts.getD (t - 1) (0, 0))
            (vertex_at vertices (cs.getD t 0)) := by
  intro iters
  induction iters with
  | zero =>
    intro cur prev2 prev1 rands pts cs rest h
    simp only [r4_loop, Option.some.injEq, Prod.mk.injEq] at h
    obtain ⟨rfl, rfl, rfl⟩ := h
    exact ⟨rfl, rfl, fun t ht => absurd ht (Nat.not_lt_zero t)⟩
  | succ iters ih =>
    intro cur prev2 prev1 rands pts cs rest h
    simp only [r4_loop] at h
    rcases hs : rejectionSample (r4_forbidden shape prev2 prev1) rands with _ | ⟨r, rrest⟩
    · simp [hs] at h
    · simp only [hs] at h
      rcases hrec : r4_loop shape ratio vertices iters
          (get_mid_point ratio cur (vertex_at vertices r)) prev1 r rrest with _ | ⟨pts', cs', rest'⟩
      · simp [hrec] at h
      · simp only [hrec, Option.some.injEq, Prod.mk.injEq] at h
        obtain ⟨rfl, rfl, rfl⟩ := h
        obtain ⟨hl, hcl, hrel⟩ := ih _ prev1 r rrest pts' cs' _ hrec
        refine ⟨by simp [hl], by simp [hcl], ?_⟩
        intro t ht
        cases t with
        | zero => simp [List.getD_cons_zero]
        | succ t =>
          have hrt := hrel t (by omega)
          simp only [List.getD_cons_succ, Nat.succ_ne_zero, if_false, Nat.succ_sub_one]
          rw [hrt, getD_cons_pred]

/-- Trace property of successful r4 runs: every chosen index passes the r4
rejection test against the pair of previously chosen indices current when it
was drawn. -/
def r4_ok (shape : Int) : Int → Int → List Int → Prop
  | _, _, [] => True
  | prev2, prev1, c :: cs => r4_forbidden shape prev2 prev1 c = false ∧ r4_ok shape prev1 c cs

theorem r4_loop_ok (shape : Int) ( ratio : α) (vertices : List (α × α)) :
    ∀ (iters : Nat) (cur : α × α) (prev2 prev1 : Int) (rands : List Int)
      (pts : List (α × α)) (cs rest : List Int),
      r4_loop shape ratio vertices iters cur prev2 prev1 rands = some (pts, cs, rest) →
      r4_ok shape prev2 prev1 cs := by
  intro iters
  induction iters with
  | zero =>
    intro cur prev2 prev1 rands pts cs rest h
    simp only [r4_loop, Option.some.injEq, Prod.mk.injEq] at h
    obtain ⟨-, rfl, -⟩ := h
    trivial
  | succ iters ih =>
    intro cur prev2 prev1 rands pts cs rest h
    simp only [r4_loop] at h
    rcases hs : rejectionSample (r4_forbidden shape prev2 prev1) rands with _ | ⟨r, rrest⟩
    · simp [hs] at h
    · simp only [hs] at h
      rcases hrec : r4_loop shape ratio vertices iters
          (get_mid_point ratio cur (vertex_at vertices r)) prev1 r rrest with _ | ⟨pts', cs', rest'⟩
      · simp [hrec] at h
      · simp only [hrec, Option.some.injEq, Prod.mk.injEq] at h
        obtain ⟨-, rfl, -⟩ := h
        exact ⟨rejectionSample_not_bad _ rands r rrest hs, ih _ prev1 r rrest pts' cs' _ hrec⟩

/-- Index form of `r4_ok`: inside the chosen trace, whenever two consecutive
chosen indices are equal, the next chosen index is neither neighbor
modulo `shape`. -/
theorem r4_ok_getD (shape : Int) :
    ∀ (cs : List Int) (prev2 prev1 : Int), r4_ok shape prev2 prev1 cs →
      ∀ t, t + 2 < cs.length → cs.getD t 0 = cs.getD (t + 1) 0 →
        cs.getD (t + 2) 0 ≠ (cs.getD (t + 1) 0 - 1) % shape ∧
        cs.getD (t + 2) 0 ≠ (cs.getD (t + 1) 0 + 1) % shape := by
  intro cs
  induction cs with
  | nil =>
    intro prev2 prev1 hok t ht
    simp at ht
  | cons c cs ih =>
    intro prev2 prev1 hok t ht heq
    obtain ⟨h1, hok'⟩ := hok
    cases t with
    | zero =>
      cases cs with
      | nil => simp at ht
      | cons c1 cs1 =>
        cases cs1 with
        | nil => simp at ht
        | cons c2 cs2 =>
          obtain ⟨h2, hok''⟩ := hok'
          obtain ⟨h3, -⟩ := hok''
          simp only [List.getD_cons_zero, List.getD_cons_succ] at heq ⊢
          subst heq
          simp only [r4_forbidden, beq_self_eq_true, if_true, Bool.or_eq_false_iff,
            beq_eq_false_iff_ne, ne_eq] at h3
          exact h3
    | succ t =>
      have ht' : t + 2 < cs.length := by
        simp only [List.length_cons] at ht
        omega
      have heq' : cs.getD t 0 = cs.getD (t + 1) 0 := by
        simpa only [List.getD_cons_succ] using heq
      have := ih prev1 c hok' t ht' heq'
      simpa only [List.getD_cons_succ] using this

/-- Uniform per-call run specification for all five recognised rules: a
successful `play(iterations)` appends exactly `iterations` points and exactly
`iterations` chosen indices, and every appended point is the scaled-sum
midpoint of the running point (the stored start for the first iteration) and
the chosen vertex. -/
theorem play_spec (rule : String)
    (hrule : rule = "r0" ∨ rule = "r1" ∨ rule = "r2" ∨ rule = "r3" ∨ rule = "r4")
    (shape : Int) ( ratio : α) (vertices : List (α × α)) (start : α × α)
    (iterations : Nat) (rands : List Int)
    (pts : List (α × α)) (cs rest : List Int)
    (h : play rule shape ratio vertices start iterations rands = some (pts, cs, rest)) :
    pts.length = iterations ∧ cs.length = iterations ∧
    ∀ t < iterations,
      pts.getD t (0, 0) =
        get_mid_point ratio (if t = 0 then start else pts.getD (t - 1) (0, 0))
          (vertex_at vertices (cs.getD t 0)) := by
  rcases hrule with rfl | rfl | rfl | rfl | rfl
  · exact r0_loop_spec shape ratio vertices iterations start rands pts cs rest h
  · cases rands with
    | nil =>
      have h' : (none : Option (List (α × α) × List Int × List Int)) = some (pts, cs, rest) := h
      simp at h'
    | cons r rrest =>
      have h' : r1_loop shape ratio vertices iterations start (-2) rrest =
          some (pts, cs, rest) := h
      exact r1_loop_spec shape ratio vertices iterations start (-2) rrest pts cs rest h'
  · cases rands with
    | nil =>
      have h' : (none : Option (List (α × α) × List Int × List Int)) = some (pts, cs, rest) := h
      simp at h'
    | cons r rrest =>
      have h' : r2_loop shape false ratio vertices iterations start (-2) rrest =
          some (pts, cs, rest) := h
      exact r2_loop_spec shape false ratio vertices iterations start (-2) rrest pts cs rest h'
  · cases rands with
    | nil =>
      have h' : (none : Option (List (α × α) × List Int × List Int)) = some (pts, cs, rest) := h
      simp at h'
    | cons r rrest =>
      have h' : r2_loop shape true ratio vertices iterations start (-2) rrest =
          some (pts, cs, rest) := h
      exact r2_loop_spec shape true ratio vertices iterations start (-2) rrest pts cs rest h'
  · exact r4_loop_spec shape ratio vertices iterations start (-2) (-1) rands pts cs rest h

theorem neg_emod_eq (s a : Int) (h0 : 0 ≤ s - a) (h1 : s - a < s) : (-a) % s = s - a := by
  have hstep : (-a) % s = (s - a) % s := by
    conv_lhs => rw [show (-a : Int) = (s - a) + s * (-1) by ring]
    rw [Int.add_mul_emod_self_left]
  rw [hstep, Int.emod_eq_of_lt h0 h1]

/-- C3 is false as stated: with history still holding the sentinels, rule r2's
rejection test is `idx == (-2 - 1) % shape`, and Python's `%` wraps `-3` back
into `[0, shape)`, so the in-range candidate `(-3) % shape` (here `0` for
`shape = 3`) is rejected on the very first iteration.  The attached run
(`shape = 3`, first discarded sample `9`, then loop samples `0`, `1`) shows
candidate `0` being resampled away: the chosen index is `1` and three samples
are consumed. -/
theorem C3_counterexample :
    (0 : Int) ≤ 0 ∧ (0 : Int) < 3 ∧ r2_forbidden 3 false (-2) 0 = true ∧
    r2_play 3 false (1 : Int) [(0, 1), (2, 3), (4, 5)] (0, 0) 1 [9, 0, 1] =
      some ([(2, 3)], [1], []) := by decide

/-- C3 amended: on the first iteration of a first `play` call (sentinel
history `-2`, `-1`), the exclusion tests of rules r1 and r4 reject no
candidate in `[0, vertex_count)` (rule r0 applies no test at all), but rule
r2 rejects exactly the candidate `vertex_count - 3` (that is,
`(-3) % vertex_count`) and rule r3 rejects exactly `vertex_count - 1`: the
sentinel is wrapped into range by the modulo, so one first-iteration
candidate is spuriously rejected under r2 and r3. -/
theorem C3_first_iteration_constraints (shape : Int) (hshape : 3 ≤ shape)
    (idx : Int) (h0 : 0 ≤ idx) (h1 : idx < shape) :
    r1_forbidden (-2) idx = false ∧
    r4_forbidden shape (-2) (-1) idx = false ∧
    (r2_forbidden shape false (-2) idx = true ↔ idx = shape - 3) ∧
    (r2_forbidden shape true (-2) idx = true ↔ idx = shape - 1) := by
  have hm3 : ((-2 : Int) - 1) % shape = shape - 3 := by
    have := neg_emod_eq shape 3 (by omega) (by omega)
    norm_num at this ⊢
    exact this
  have hm1 : ((-2 : Int) + 1) % shape = shape - 1 := by
    have := neg_emod_eq shape 1 (by omega) (by omega)
    norm_num at this ⊢
    exact this
  refine ⟨?_, ?_, ?_, ?_⟩
  · rw [r1_forbidden, beq_eq_false_iff_ne]
    omega
  · rw [r4_forbidden, if_neg (by norm_num)]
  · rw [r2_forbidden, if_neg (by norm_num), hm3, beq_iff_eq]
  · rw [r2_forbidden, if_pos rfl, hm1, beq_iff_eq]

/-- Witness for the amended C3 at `shape = 3`, candidate `0` (which is the
rejected candidate of rule r2 there). -/
theorem C3_first_iteration_constraints_witness :
    (3 ≤ (3 : Int) ∧ 0 ≤ (0 : Int) ∧ (0 : Int) < 3) ∧
    (r1_forbidden (-2) 0 = false ∧
     r4_forbidden 3 (-2) (-1) 0 = false ∧
     (r2_forbidden 3 false (-2) 0 = true ↔ (0 : Int) = 3 - 3) ∧
     (r2_forbidden 3 true (-2) 0 = true ↔ (0 : Int) = 3 - 1)) :=
  ⟨by norm_num,
   C3_first_iteration_constraints 3 (by norm_num) 0 (by norm_num) (by norm_num)⟩

/-- C4: for every configured engine (vertex count at least 3, rule one of
r0..r4), a successful `play(k)` followed by a successful `play(j)` leaves
`self.points` (which starts empty and only ever has one point appended per
iteration) with exactly `k + j` entries, the first `k` of which are exactly
the entries appended by the first call. -/
theorem C4_play_play_lengths (rule : String)
    (hrule : rule = "r0" ∨ rule = "r1" ∨ rule = "r2" ∨ rule = "r3" ∨ rule = "r4")
    (shape : Int) (hshape : 3 ≤ shape) ( ratio : α) (vertices : List (α × α))
    (start : α × α) (k j : Nat) (rands : List Int)
    (pts1 : List (α × α)) (cs1 rest1 : List Int)
    (pts2 : List (α × α)) (cs2 rest2 : List Int)
    (h1 : play rule shape ratio vertices start k rands = some (pts1, cs1, rest1))
    (h2 : play rule shape ratio vertices start j rest1 = some (pts2, cs2, rest2)) :
    (pts1 ++ pts2).length = k + j ∧ (pts1 ++ pts2).take k = pts1 := by
  obtain ⟨hl1, -, -⟩ := play_spec rule hrule shape ratio vertices start k rands pts1 cs1 rest1 h1
  obtain ⟨hl2, -, -⟩ := play_spec rule hrule shape ratio vertices start j rest1 pts2 cs2 rest2 h2
  constructor
  · simp [hl1, hl2]
  · rw [← hl1]
    exact List.take_left pts1 pts2

/-- Witness for C4: two successive r0 calls of one iteration each over `ℤ`
coordinates. -/
theorem C4_play_play_lengths_witness :
    play "r0" 3 (1 : Int) [(0, 1), (2, 3), (4, 5)] (0, 0) 1 [0, 1] =
      some ([(0, 1)], [0], [1]) ∧
    play "r0" 3 (1 : Int) [(0, 1), (2, 3), (4, 5)] (0, 0) 1 [1] =
      some ([(2, 3)], [1], []) ∧
    (([((0 : Int), (1 : Int))] ++ [(2, 3)]).length = 1 + 1 ∧
     ([((0 : Int), (1 : Int))] ++ [(2, 3)]).take 1 = [(0, 1)]) :=
  ⟨by decide, by decide,
   C4_play_play_lengths "r0" (Or.inl rfl) 3 (by norm_num) 1 [(0, 1), (2, 3), (4, 5)]
     (0, 0) 1 1 [0, 1] [(0, 1)] [0] [1] [(2, 3)] [1] [] (by decide) (by decide)⟩

/-- C5: for every rule, every iteration, every current point `(cx, cy)`,
every chosen vertex `(vx, vy)` and every ratio, the point appended to the
visited list is the component-wise scaled sum
`((cx + vx) * ratio, (cy + vy) * ratio)` — the ratio multiplies the sum of
the coordinates, not their difference. -/
theorem C5_scaled_sum_formula (rule : String)
    (hrule : rule = "r0" ∨ rule = "r1" ∨ rule = "r2" ∨ rule = "r3" ∨ rule = "r4")
    (shape : Int) ( ratio : α) (vertices : List (α × α)) (start : α × α)
    (iterations : Nat) (rands : List Int)
    (pts : List (α × α)) (cs rest : List Int)
    (h : play rule shape ratio vertices start iterations rands = some (pts, cs, rest)) :
    ∀ t < pts.length,
      pts.getD t (0, 0) =
        (((if t = 0 then start else pts.getD (t - 1) (0, 0)).1 +
            (vertex_at vertices (cs.getD t 0)).1) * ratio,
         ((if t = 0 then start else pts.getD (t - 1) (0, 0)).2 +
            (vertex_at vertices (cs.getD t 0)).2) * ratio) := by
  obtain ⟨hl, -, hrel⟩ :=
    play_spec rule hrule shape ratio vertices start iterations rands pts cs rest h
  intro t ht
  rw [hl] at ht
  exact hrel t ht

/-- Witness for C5: a two-iteration r0 run over `ℤ` coordinates with
`ratio = 1`. -/
theorem C5_scaled_sum_formula_witness :
    play "r0" 3 (1 : Int) [(0, 1), (2, 3), (4, 5)] (0, 0) 2 [0, 1] =
      some ([(0, 1), (2, 4)], [0, 1], []) ∧
    ∀ t < ([((0 : Int), (1 : Int)), (2, 4)]).length,
      ([((0 : Int), (1 : Int)), (2, 4)]).getD t (0, 0) =
        (((if t = 0 then ((0 : Int), (0 : Int))
           else ([((0 : Int), (1 : Int)), (2, 4)]).getD (t - 1) (0, 0)).1 +
            (vertex_at [((0 : Int), (1 : Int)), (2, 3), (4, 5)] (([0, 1] : List Int).getD t 0)).1) * 1,
         ((if t = 0 then ((0 : Int), (0 : Int))
           else ([((0 : Int), (1 : Int)), (2, 4)]).getD (t - 1) (0, 0)).2 +
            (vertex_at [((0 : Int), (1 : Int)), (2, 3), (4, 5)] (([0, 1] : List Int).getD t 0)).2) * 1) :=
  ⟨by decide,
   C5_scaled_sum_formula "r0" (Or.inl rfl) 3 1 [(0, 1), (2, 3), (4, 5)] (0, 0) 2 [0, 1]
     [(0, 1), (2, 4)] [0, 1] [] (by decide)⟩

/-- C6: in every chosen-index trace produced by `play` under rule r4,
whenever the two most recently chosen indices before a step are equal, the
index chosen at that step is neither `(previous - 1) % vertex_count` nor
`(previous + 1) % vertex_count`; and when the two most recent indices differ
the r4 rejection test is `false` for every candidate, so a neighbor of the
previous index is permitted. -/
theorem C6_r4_conditional_exclusion (shape : Int) ( ratio : α)
    (vertices : List (α × α)) (start : α × α) (iterations : Nat) (rands : List Int)
    (pts : List (α × α)) (cs rest : List Int)
    (h : play "r4" shape ratio vertices start iterations rands = some (pts, cs, rest)) :
    (∀ t, t + 2 < cs.length → cs.getD t 0 = cs.getD (t + 1) 0 →
       cs.getD (t + 2) 0 ≠ (cs.getD (t + 1) 0 - 1) % shape ∧
       cs.getD (t + 2) 0 ≠ (cs.getD (t + 1) 0 + 1) % shape) ∧
    (∀ prev2 prev1 idx : Int, prev1 ≠ prev2 → r4_forbidden shape prev2 prev1 idx = false) := by
  constructor
  · have h' : r4_loop shape ratio vertices iterations start (-2) (-1) rands =
        some (pts, cs, rest) := h
    exact r4_ok_getD shape cs (-2) (-1)
      (r4_loop_ok shape ratio vertices iterations start (-2) (-1) rands pts cs rest h')
  · intro prev2 prev1 idx hne
    rw [r4_forbidden, if_neg]
    simp only [beq_iff_eq]
    exact hne

/-- Witness for C6: an r4 run over `ℤ` in which the first two chosen indices
coincide (`0, 0`), the neighbors `1` and `2` are then resampled away and the
third chosen index is again `0`. -/
theorem C6_r4_conditional_exclusion_witness :
    play "r4" 3 (0 : Int) ([] : List (Int × Int)) (0, 0) 3 [0, 0, 1, 2, 0] =
      some ([(0, 0), (0, 0), (0, 0)], [0, 0, 0], []) ∧
    ((∀ t, t + 2 < ([0, 0, 0] : List Int).length →
       ([0, 0, 0] : List Int).getD t 0 = ([0, 0, 0] : List Int).getD (t + 1) 0 →
       ([0, 0, 0] : List Int).getD (t + 2) 0 ≠ (([0, 0, 0] : List Int).getD (t + 1) 0 - 1) % 3 ∧
       ([0, 0, 0] : List Int).getD (t + 2) 0 ≠ (([0, 0, 0] : List Int).getD (t + 1) 0 + 1) % 3) ∧
    (∀ prev2 prev1 idx : Int, prev1 ≠ prev2 → r4_forbidden 3 prev2 prev1 idx = false)) :=
  ⟨by decide,
   C6_r4_conditional_exclusion 3 (0 : Int) ([] : List (Int × Int)) (0, 0) 3 [0, 0, 1, 2, 0]
     [(0, 0), (0, 0), (0, 0)] [0, 0, 0] [] (by decide)⟩

/-- C9: `play` with a rule outside r0..r4 is a silent no-op of the source
dispatch chain (there is no `else` branch): the call completes normally,
appends no point, consumes no randomness and raises nothing, instead of
failing fast; it also does not fall back to r0, whose run on the same inputs
appends a point. -/
theorem C9_unknown_rule_silent_noop :
    play "r5" 3 (1 : Int) [(0, 1), (2, 3), (4, 5)] (0, 0) 1 [0] =
      some ([], [], [0]) ∧
    play "r0" 3 (1 : Int) [(0, 1), (2, 3), (4, 5)] (0, 0) 1 [0] =
      some ([(0, 1)], [0], []) := by decide

/-- Python's `round(x, 2)` idealised over `ℝ`: round `x * 100` to the nearest
integer and divide by `100`.  (Mathlib's `round` is round-half-up while
Python rounds halves to even; the two agree away from exact half-cent values,
and no value this development evaluates sits on such a boundary.) -/
noncomputable def round2 (x : ℝ) : ℝ := ((round (x * 100) : Int) : ℝ) / 100

/-- Source `ChaosGame._generate_polygon` (lines 48-68):
`radians = 2 * pi / no_of_vertices`, `x0, y0 = 0, 1`, first vertex `(x0, y0)`
unrounded, then for `vertex in range(1, no_of_vertices)` append
`(round(x, 2), round(y, 2))` with
`x = x0 * cos(vertex * radians) - y0 * sin(vertex * radians)` and
`y = y0 * cos(vertex * radians) - x0 * sin(vertex * radians)`. -/
noncomputable def generate_polygon (no_of_vertices : Nat) : List (ℝ × ℝ) :=
  let radians : ℝ := 2 * Real.pi / no_of_vertices
  let x0 : ℝ := 0
  let y0 : ℝ := 1
  (x0, y0) ::
    (List.range (no_of_vertices - 1)).map (fun j =>
      let vertex : ℝ := ((j + 1 : Nat) : ℝ)
      (round2 (x0 * Real.cos (vertex * radians) - y0 * Real.sin (vertex * radians)),
       round2 (y0 * Real.cos (vertex * radians) - x0 * Real.sin (vertex * radians))))

/-- Source `ChaosGame._random_start_point` (lines 84-97):
`x = y = self.random.random() * (0.5 - -0.5) + -0.5`, where `r` models the
value returned by `random.random()` (a real in `[0, 1)`). -/
noncomputable def random_start_point (r : ℝ) : ℝ × ℝ :=
  let x := r * (0.5 - -0.5) + -0.5
  (x, x)

theorem round2_err (x : ℝ) : |round2 x - x| ≤ 1 / 200 := by
  rw [round2]
  have h2 : ((round (x * 100) : Int) : ℝ) / 100 - x =
      (((round (x * 100) : Int) : ℝ) - x * 100) / 100 := by ring
  rw [h2, abs_div, abs_of_pos (by norm_num : (0 : ℝ) < 100)]
  have h3 : |((round (x * 100) : Int) : ℝ) - x * 100| ≤ 1 / 2 := by
    have h4 := abs_sub_round (x * 100)
    rwa [abs_sub_comm] at h4
  linarith

/-- Evaluation rule for `round2` from explicit bracketing of `x * 100`. -/
theorem round2_eq (x : ℝ) (m : Int) (h1 : (m : ℝ) ≤ x * 100 + 1 / 2)
    (h2 : x * 100 + 1 / 2 < m + 1) : round2 x = (m : ℝ) / 100 := by
  rw [round2, round_eq]
  have hm : ⌊x * 100 + 1 / 2⌋ = m := Int.floor_eq_iff.mpr ⟨h1, by exact_mod_cast h2⟩
  rw [hm]

theorem scaled_product_bounds (a e c : ℝ) (ha1 : -1 ≤ a) (ha2 : a ≤ 1)
    (he : |e| ≤ c) : -c ≤ a * e ∧ a * e ≤ c := by
  obtain ⟨he1, he2⟩ := abs_le.mp he
  constructor <;>
    nlinarith [mul_nonneg (by linarith : (0 : ℝ) ≤ 1 - a) (by linarith : (0 : ℝ) ≤ c - e),
      mul_nonneg (by linarith : (0 : ℝ) ≤ 1 + a) (by linarith : (0 : ℝ) ≤ c + e),
      mul_nonneg (by linarith : (0 : ℝ) ≤ 1 - a) (by linarith : (0 : ℝ) ≤ c + e),
      mul_nonneg (by linarith : (0 : ℝ) ≤ 1 + a) (by linarith : (0 : ℝ) ≤ c - e)]

/-- Numeric core of the distance property: perturbing a unit vector by at
most `1/200` in each coordinate keeps its norm within `3/200` of `1`. -/
theorem unit_perturb_dist (a b e1 e2 : ℝ) (hab : a ^ 2 + b ^ 2 = 1)
    (h1 : |e1| ≤ 1 / 200) (h2 : |e2| ≤ 1 / 200) :
    |Real.sqrt ((a + e1) ^ 2 + (b + e2) ^ 2) - 1| ≤ 3 / 200 := by
  have ha : -1 ≤ a ∧ a ≤ 1 := by constructor <;> nlinarith [sq_nonneg b]
  have hb : -1 ≤ b ∧ b ≤ 1 := by constructor <;> nlinarith [sq_nonneg a]
  have hae := scaled_product_bounds a e1 (1 / 200) ha.1 ha.2 h1
  have hbe := scaled_product_bounds b e2 (1 / 200) hb.1 hb.2 h2
  have he1sq : e1 ^ 2 ≤ (1 / 200 : ℝ) ^ 2 := by
    rw [← sq_abs e1]
    exact pow_le_pow_left (abs_nonneg e1) h1 2
  have he2sq : e2 ^ 2 ≤ (1 / 200 : ℝ) ^ 2 := by
    rw [← sq_abs e2]
    exact pow_le_pow_left (abs_nonneg e2) h2 2
  have hSlo : (197 / 200 : ℝ) ^ 2 ≤ (a + e1) ^ 2 + (b + e2) ^ 2 := by
    nlinarith [sq_nonneg e1, sq_nonneg e2, hae.1, hbe.1]
  have hShi : (a + e1) ^ 2 + (b + e2) ^ 2 ≤ (203 / 200 : ℝ) ^ 2 := by
    nlinarith [hae.2, hbe.2, he1sq, he2sq]
  have hlo : (197 / 200 : ℝ) ≤ Real.sqrt ((a + e1) ^ 2 + (b + e2) ^ 2) := by
    have hmono := Real.sqrt_le_sqrt hSlo
    rwa [Real.sqrt_sq (by norm_num : (0 : ℝ) ≤ 197 / 200)] at hmono
  have hhi : Real.sqrt ((a + e1) ^ 2 + (b + e2) ^ 2) ≤ 203 / 200 := by
    have hmono := Real.sqrt_le_sqrt hShi
    rwa [Real.sqrt_sq (by norm_num : (0 : ℝ) ≤ 203 / 200)] at hmono
  rw [abs_le]
  constructor <;> linarith

/-- C7 amended: for every `vertex_count ≥ 3` the generator returns exactly
`vertex_count` points, each at Euclidean distance `1` from the origin up to
the tolerance `3/200` introduced by rounding both coordinates to 2 decimal
places; but the points need NOT be pairwise distinct — for large vertex
counts adjacent vertices collide after rounding (at `vertex_count = 630`,
vertices 157 and 158 coincide). -/
theorem C7_polygon_generation (n : Nat) (hn : 3 ≤ n) :
    (generate_polygon n).length = n ∧
    ∀ p ∈ generate_polygon n, |Real.sqrt (p.1 ^ 2 + p.2 ^ 2) - 1| ≤ 3 / 200 := by
  constructor
  · simp only [generate_polygon, List.length_cons, List.length_map, List.length_range]
    omega
  · intro p hp
    simp only [generate_polygon, List.mem_cons, List.mem_map, List.mem_range] at hp
    rcases hp with rfl | ⟨j, hj, rfl⟩
    · norm_num
    · simp only
      set t := ((j + 1 : Nat) : ℝ) * (2 * Real.pi / (n : ℝ)) with ht
      have hA : (0 : ℝ) * Real.cos t - 1 * Real.sin t = -Real.sin t := by ring
      have hB : (1 : ℝ) * Real.cos t - 0 * Real.sin t = Real.cos t := by ring
      rw [hA, hB]
      have key := unit_perturb_dist (-Real.sin t) (Real.cos t)
        (round2 (-Real.sin t) - -Real.sin t) (round2 (Real.cos t) - Real.cos t)
        (by
          have := Real.sin_sq_add_cos_sq t
          nlinarith [this])
        (round2_err (-Real.sin t)) (round2_err (Real.cos t))
      have e1eq : -Real.sin t + (round2 (-Real.sin t) - -Real.sin t) =
          round2 (-Real.sin t) := by ring
      have e2eq : Real.cos t + (round2 (Real.cos t) - Real.cos t) =
          round2 (Real.cos t) := by ring
      rw [e1eq, e2eq] at key
      exact key

/-- Witness for the amended C7 at `vertex_count = 3`. -/
theorem C7_polygon_generation_witness :
    3 ≤ 3 ∧
    ((generate_polygon 3).length = 3 ∧
     ∀ p ∈ generate_polygon 3, |Real.sqrt (p.1 ^ 2 + p.2 ^ 2) - 1| ≤ 3 / 200) :=
  ⟨by norm_num, C7_polygon_generation 3 (by norm_num)⟩

/-- Vertex `k + 1` of the generated polygon, read off the table: its angle is
`(k + 1) * 2π/n` and its coordinates are the rounded `(-sin, cos)` values. -/
theorem generate_polygon_getD (n k : Nat) (t : ℝ) (hk : k < n - 1)
    (ht : t = ((k + 1 : Nat) : ℝ) * (2 * Real.pi / (n : ℝ))) :
    (generate_polygon n).getD (k + 1) (0, 0) =
      (round2 (-Real.sin t), round2 (Real.cos t)) := by
  simp only [generate_polygon, List.getD_cons_succ]
  rw [List.getD_eq_getElem?_getD, List.getElem?_map, List.getElem?_range hk]
  simp only [Option.map_some', Option.getD_some]
  apply Prod.ext
  · simp only
    congr 1
    rw [ht]
    ring
  · simp only
    congr 1
    rw [ht]
    ring

/-- C7 fails as stated: for `vertex_count = 630` the polygon's vertices 157
and 158 coincide.  Their angles are `π/2 ∓ π/630`, so both x-coordinates are
exactly `round2 (-cos (π/630))`, and both y-coordinates round to `0` because
`0 < sin (π/630) < 1/200`: the 630 returned points are not pairwise
distinct. -/
theorem C7_counterexample :
    (generate_polygon 630).length = 630 ∧ (157 : Nat) ≠ 158 ∧
    (generate_polygon 630).getD 157 (0, 0) = (generate_polygon 630).getD 158 (0, 0) := by
  refine ⟨?_, by norm_num, ?_⟩
  · simp only [generate_polygon, List.length_cons, List.length_map, List.length_range]
  · have h157 := generate_polygon_getD 630 156 (Real.pi / 2 - Real.pi / 630) (by norm_num)
      (by push_cast; ring)
    have h158 := generate_polygon_getD 630 157 (Real.pi / 2 + Real.pi / 630) (by norm_num)
      (by push_cast; ring)
    rw [show (157 : Nat) = 156 + 1 from rfl, show (158 : Nat) = 157 + 1 from rfl,
      h157, h158]
    have hs1 : Real.sin (Real.pi / 2 - Real.pi / 630) = Real.cos (Real.pi / 630) :=
      Real.sin_pi_div_two_sub _
    have hs2 : Real.sin (Real.pi / 2 + Real.pi / 630) = Real.cos (Real.pi / 630) := by
      rw [Real.sin_add, Real.sin_pi_div_two, Real.cos_pi_div_two]
      ring
    have hc1 : Real.cos (Real.pi / 2 - Real.pi / 630) = Real.sin (Real.pi / 630) :=
      Real.cos_pi_div_two_sub _
    have hc2 : Real.cos (Real.pi / 2 + Real.pi / 630) = -Real.sin (Real.pi / 630) := by
      rw [Real.cos_add, Real.sin_pi_div_two, Real.cos_pi_div_two]
      ring
    have hpos : 0 < Real.sin (Real.pi / 630) :=
      Real.sin_pos_of_pos_of_lt_pi (by positivity)
        (div_lt_self Real.pi_pos (by norm_num))
    have hsmall : Real.sin (Real.pi / 630) < 1 / 200 := by
      have hlt := Real.sin_lt (show (0 : ℝ) < Real.pi / 630 by positivity)
      have hpi : Real.pi < 3.15 := Real.pi_lt_315
      calc Real.sin (Real.pi / 630) < Real.pi / 630 := hlt
      _ < 3.15 / 630 := by linarith
      _ = 1 / 200 := by norm_num
    have hr1 : round2 (Real.sin (Real.pi / 630)) = 0 := by
      have := round2_eq (Real.sin (Real.pi / 630)) 0 (by push_cast; nlinarith)
        (by push_cast; nlinarith)
      simpa using this
    have hr2 : round2 (-Real.sin (Real.pi / 630)) = 0 := by
      have := round2_eq (-Real.sin (Real.pi / 630)) 0 (by push_cast; nlinarith)
        (by push_cast; nlinarith)
      simpa using this
    rw [hs1, hs2, hc1, hc2, hr1, hr2]

theorem list_eq_three {β : Type} (l : List β) (d a b c : β) (hlen : l.length = 3)
    (h0 : l.getD 0 d = a) (h1 : l.getD 1 d = b) (h2 : l.getD 2 d = c) : l = [a, b, c] := by
  match l, hlen with
  | [x, y, z], _ =>
    simp only [List.getD_cons_zero, List.getD_cons_succ] at h0 h1 h2
    rw [h0, h1, h2]

/-- Concrete value of the generated triangle: the exact top vertex `(0, 1)`
and the two bottom vertices `(∓0.87, -0.5)` after rounding to 2 decimals. -/
theorem generate_polygon_three :
    generate_polygon 3 =
      [((0 : ℝ), (1 : ℝ)), (-(87 / 100), -(1 / 2)), (87 / 100, -(1 / 2))] := by
  have hsqrt_hi : Real.sqrt 3 < 1.75 := by
    have h := Real.sqrt_lt_sqrt (by norm_num : (0 : ℝ) ≤ 3)
      (by norm_num : (3 : ℝ) < 1.75 ^ 2)
    rwa [Real.sqrt_sq (by norm_num : (0 : ℝ) ≤ 1.75)] at h
  have hsqrt_lo : (1.73 : ℝ) < Real.sqrt 3 := by
    have h := Real.sqrt_lt_sqrt (by norm_num : (0 : ℝ) ≤ 1.73 ^ 2)
      (by norm_num : (1.73 : ℝ) ^ 2 < 3)
    rwa [Real.sqrt_sq (by norm_num : (0 : ℝ) ≤ 1.73)] at h
  have hs1 : Real.sin (2 * Real.pi / 3) = Real.sqrt 3 / 2 := by
    rw [show (2 * Real.pi / 3 : ℝ) = Real.pi - Real.pi / 3 by ring, Real.sin_pi_sub,
      Real.sin_pi_div_three]
  have hc1 : Real.cos (2 * Real.pi / 3) = -(1 / 2) := by
    rw [show (2 * Real.pi / 3 : ℝ) = Real.pi - Real.pi / 3 by ring, Real.cos_pi_sub,
      Real.cos_pi_div_three]
  have hs2 : Real.sin (4 * Real.pi / 3) = -(Real.sqrt 3 / 2) := by
    rw [show (4 * Real.pi / 3 : ℝ) = Real.pi + Real.pi / 3 by ring, Real.sin_add,
      Real.sin_pi, Real.cos_pi, Real.sin_pi_div_three]
    ring
  have hc2 : Real.cos (4 * Real.pi / 3) = -(1 / 2) := by
    rw [show (4 * Real.pi / 3 : ℝ) = Real.pi + Real.pi / 3 by ring, Real.cos_add,
      Real.sin_pi, Real.cos_pi, Real.cos_pi_div_three]
    ring
  have hhalf : round2 (-(1 / 2) : ℝ) = -(1 / 2) := by
    have h := round2_eq (-(1 / 2) : ℝ) (-50) (by push_cast; norm_num) (by push_cast; norm_num)
    rw [h]
    push_cast
    norm_num
  have hneg87 : round2 (-(Real.sqrt 3 / 2)) = -(87 / 100) := by
    have h := round2_eq (-(Real.sqrt 3 / 2)) (-87) (by push_cast; linarith)
      (by push_cast; linarith)
    rw [h]
    push_cast
    norm_num
  have hpos87 : round2 (Real.sqrt 3 / 2) = 87 / 100 := by
    have h := round2_eq (Real.sqrt 3 / 2) 87 (by push_cast; linarith) (by push_cast; linarith)
    rw [h]
    push_cast
    norm_num
  refine list_eq_three _ (0, 0) _ _ _ ?_ ?_ ?_ ?_
  · simp [generate_polygon]
  · simp only [generate_polygon, List.getD_cons_zero]
  · have h := generate_polygon_getD 3 0 (2 * Real.pi / 3) (by norm_num) (by push_cast; ring)
    rw [show (1 : Nat) = 0 + 1 from rfl, h, hs1, hc1, hneg87, hhalf]
  · have h := generate_polygon_getD 3 1 (4 * Real.pi / 3) (by norm_num) (by push_cast; ring)
    rw [show (2 : Nat) = 1 + 1 from rfl, h, hs2, hc2, hhalf,
      show -(-(Real.sqrt 3 / 2)) = Real.sqrt 3 / 2 by ring, hpos87]

/-- Convex hull of the generated triangle's vertex set. -/
def triangle_hull : Set (ℝ × ℝ) :=
  convexHull ℝ {p : ℝ × ℝ | p ∈ generate_polygon 3}

/-- Scaled-sum step with `ratio = 1/2` is the true midpoint, an affine
combination with coefficients `1/2, 1/2`. -/
theorem get_mid_point_half (cur v : ℝ × ℝ) :
    get_mid_point (1 / 2 : ℝ) cur v = (1 / 2 : ℝ) • cur + (1 / 2 : ℝ) • v := by
  apply Prod.ext <;> simp [get_mid_point] <;> ring

/-- Convexity invariant of the r0 loop at `ratio = 1/2`: if the running point
and all vertices reachable by the stream lie in a convex set, so does every
appended point. -/
theorem r0_loop_mem_convex (S : Set (ℝ × ℝ)) (hconv : Convex ℝ S)
    (shape : Int) ( ratio : ℝ) (hratio : ratio = 1 / 2)
    (vertices : List (ℝ × ℝ)) (hv : ∀ q ∈ vertices, q ∈ S) :
    ∀ (iters : Nat) (cur : ℝ × ℝ) (rands : List Int)
      (pts : List (ℝ × ℝ)) (cs rest : List Int),
      (∀ s ∈ rands, 0 ≤ s ∧ s.toNat < vertices.length) →
      cur ∈ S →
      r0_loop shape ratio vertices iters cur rands = some (pts, cs, rest) →
      ∀ p ∈ pts, p ∈ S := by
  intro iters
  induction iters with
  | zero =>
    intro cur rands pts cs rest _ _ h
    simp only [r0_loop, Option.some.injEq, Prod.mk.injEq] at h
    obtain ⟨rfl, -, -⟩ := h
    simp
  | succ iters ih =>
    intro cur rands pts cs rest hrands hcur h
    cases rands with
    | nil => simp [r0_loop, sample] at h
    | cons r rrest =>
      simp only [r0_loop, sample] at h
      have hrin := hrands r (List.mem_cons_self r rrest)
      have hvmem : vertex_at vertices r ∈ S := by
        rw [vertex_at, List.getD_eq_getElem?_getD, List.getElem?_eq_getElem hrin.2,
          Option.getD_some]
        exact hv _ (List.getElem_mem hrin.2)
      have hpmem : get_mid_point ratio cur (vertex_at vertices r) ∈ S := by
        rw [hratio, get_mid_point_half]
        exact hconv hcur hvmem (by norm_num) (by norm_num) (by norm_num)
      rcases hrec : r0_loop shape ratio vertices iters
          (get_mid_point ratio cur (vertex_at vertices r)) rrest with _ | ⟨pts', cs', rest'⟩
      · simp [hrec] at h
      · simp only [hrec, Option.some.injEq, Prod.mk.injEq] at h
        obtain ⟨rfl, -, -⟩ := h
        intro p hp
        rcases List.mem_cons.mp hp with rfl | hp'
        · exact hpmem
        · exact ih _ rrest pts' cs' rest'
            (fun s hs => hrands s (List.mem_cons_of_mem r hs)) hpmem hrec p hp'

/-- C8 amended: with `ratio = 1/2`, `vertex_count = 3` and rule r0, every
point appended by `play` lies in the (closed) convex hull of the generated
triangle PROVIDED the random start point lies in that hull.  The proviso is
necessary: the start point `x = y = random() - 0.5` can fall outside the
triangle, and then early appended points also fall outside the hull (as at
`random() = 0.99`), so the claim's unconditional strict containment is
false. -/
theorem C8_containment (r : ℝ) (its : Nat) (rands : List Int)
    (pts : List (ℝ × ℝ)) (cs rest : List Int)
    (hr : ∀ s ∈ rands, 0 ≤ s ∧ s < 3)
    (hstart : random_start_point r ∈ triangle_hull)
    (h : play "r0" 3 (1 / 2 : ℝ) (generate_polygon 3) (random_start_point r) its rands =
      some (pts, cs, rest)) :
    ∀ p ∈ pts, p ∈ triangle_hull := by
  have hlen : (generate_polygon 3).length = 3 := by rw [generate_polygon_three]; rfl
  have h' : r0_loop 3 (1 / 2 : ℝ) (generate_polygon 3) its (random_start_point r) rands =
      some (pts, cs, rest) := h
  refine r0_loop_mem_convex triangle_hull (convex_convexHull ℝ _) 3 (1 / 2 : ℝ) rfl
    (generate_polygon 3) ?_ its (random_start_point r) rands pts cs rest ?_ hstart h'
  · intro q hq
    exact subset_convexHull ℝ _ hq
  · intro s hs
    obtain ⟨h1, h2⟩ := hr s hs
    rw [hlen]
    omega

/-- Evaluation of one-iteration r0 play with stream `[0]` over the generated
triangle: vertex 0 is `(0, 1)` and the appended point is the scaled sum. -/
theorem play_r0_one_step (start : ℝ × ℝ) :
    play "r0" 3 (1 / 2 : ℝ) (generate_polygon 3) start 1 [0] =
      some ([((start.1 + 0) * (1 / 2), (start.2 + 1) * (1 / 2))], [0], []) := by
  have hv : vertex_at (generate_polygon 3) (0 : Int) = ((0 : ℝ), (1 : ℝ)) := by
    rw [vertex_at, generate_polygon_three]
    rfl
  show r0_loop 3 (1 / 2 : ℝ) (generate_polygon 3) 1 start [0] = _
  rw [show (1 : Nat) = 0 + 1 from rfl]
  simp [r0_loop, sample, hv, get_mid_point]

/-- C8 fails as stated: the random start point is `x = y = random() - 0.5`,
which for `random() = 0.99` is `(0.49, 0.49)` — a point outside the generated
triangle — and the very first appended point `(49/200, 149/200)` (the point
halfway toward the top vertex `(0, 1)`) is not even in the closed convex hull
of the triangle, let alone strictly inside it. -/
theorem C8_counterexample :
    0 ≤ (0.99 : ℝ) ∧ (0.99 : ℝ) < 1 ∧
    random_start_point 0.99 = ((0.49 : ℝ), (0.49 : ℝ)) ∧
    play "r0" 3 (1 / 2 : ℝ) (generate_polygon 3) (random_start_point 0.99) 1 [0] =
      some ([((49 / 200 : ℝ), (149 / 200 : ℝ))], [0], []) ∧
    ((49 / 200 : ℝ), (149 / 200 : ℝ)) ∉ triangle_hull := by
  have hstart : random_start_point (0.99 : ℝ) = ((0.49 : ℝ), (0.49 : ℝ)) := by
    simp only [random_start_point]
    norm_num
  refine ⟨by norm_num, by norm_num, hstart, ?_, ?_⟩
  · rw [hstart, play_r0_one_step]
    norm_num
  · intro hmem
    have hsub : triangle_hull ⊆ {q : ℝ × ℝ | 0 ≤ -300 * q.1 - 174 * q.2 + 174} := by
      apply convexHull_min
      · intro q hq
        have hq' : q ∈ generate_polygon 3 := hq
        rw [generate_polygon_three] at hq'
        simp only [List.mem_cons, List.not_mem_nil, or_false] at hq'
        rcases hq' with rfl | rfl | rfl <;>
          simp only [Set.mem_setOf_eq] <;> norm_num
      · intro x hx y hy a b ha hb hab
        simp only [Set.mem_setOf_eq] at hx hy ⊢
        simp only [Prod.fst_add, Prod.snd_add, Prod.smul_fst, Prod.smul_snd, smul_eq_mul]
        nlinarith [mul_nonneg ha hx, mul_nonneg hb hy]
    have hin := hsub hmem
    rw [Set.mem_setOf_eq] at hin
    norm_num at hin

/-- Witness for the amended C8: starting from `random() = 1/2` (start point
`(0, 0)`, the centroid-side interior) with one iteration toward vertex 0. -/
theorem C8_containment_witness :
    (∀ s ∈ ([0] : List Int), 0 ≤ s ∧ s < 3) ∧
    random_start_point (1 / 2 : ℝ) ∈ triangle_hull ∧
    play "r0" 3 (1 / 2 : ℝ) (generate_polygon 3) (random_start_point (1 / 2)) 1 [0] =
      some ([((0 : ℝ), (1 / 2 : ℝ))], [0], []) ∧
    ∀ p ∈ [((0 : ℝ), (1 / 2 : ℝ))], p ∈ triangle_hull := by
  have hA : ((0 : ℝ), (1 : ℝ)) ∈ triangle_hull :=
    subset_convexHull ℝ _ (by rw [Set.mem_setOf_eq, generate_polygon_three]; simp)
  have hB : ((-(87 / 100) : ℝ), (-(1 / 2) : ℝ)) ∈ triangle_hull :=
    subset_convexHull ℝ _ (by rw [Set.mem_setOf_eq, generate_polygon_three]; simp)
  have hC : ((87 / 100 : ℝ), (-(1 / 2) : ℝ)) ∈ triangle_hull :=
    subset_convexHull ℝ _ (by rw [Set.mem_setOf_eq, generate_polygon_three]; simp)
  have hM : ((0 : ℝ), (-(1 / 2) : ℝ)) ∈ triangle_hull := by
    have hcomb := (convex_convexHull ℝ _) hB hC
      (by norm_num : (0 : ℝ) ≤ 1 / 2) (by norm_num : (0 : ℝ) ≤ 1 / 2) (by norm_num)
    have he : (1 / 2 : ℝ) • ((-(87 / 100) : ℝ), (-(1 / 2) : ℝ)) +
        (1 / 2 : ℝ) • ((87 / 100 : ℝ), (-(1 / 2) : ℝ)) = ((0 : ℝ), (-(1 / 2) : ℝ)) := by
      apply Prod.ext <;> simp <;> norm_num
    rwa [he] at hcomb
  have h00 : ((0 : ℝ), (0 : ℝ)) ∈ triangle_hull := by
    have hcomb := (convex_convexHull ℝ _) hA hM
      (by norm_num : (0 : ℝ) ≤ 1 / 3) (by norm_num : (0 : ℝ) ≤ 2 / 3) (by norm_num)
    have he : (1 / 3 : ℝ) • ((0 : ℝ), (1 : ℝ)) +
        (2 / 3 : ℝ) • ((0 : ℝ), (-(1 / 2) : ℝ)) = ((0 : ℝ), (0 : ℝ)) := by
      apply Prod.ext <;> simp <;> norm_num
    rwa [he] at hcomb
  have hs : random_start_point (1 / 2 : ℝ) = ((0 : ℝ), (0 : ℝ)) := by
    simp only [random_start_point]
    norm_num
  have hstartmem : random_start_point (1 / 2 : ℝ) ∈ triangle_hull := by
    rw [hs]
    exact h00
  have hrun : play "r0" 3 (1 / 2 : ℝ) (generate_polygon 3) (random_start_point (1 / 2)) 1 [0] =
      some ([((0 : ℝ), (1 / 2 : ℝ))], [0], []) := by
    rw [hs, play_r0_one_step]
    norm_num
  have hrands : ∀ s ∈ ([0] : List Int), 0 ≤ s ∧ s < 3 := by
    intro s hsm
    simp only [List.mem_singleton] at hsm
    subst hsm
    norm_num
  exact ⟨hrands, hstartmem, hrun,
    C8_containment (1 / 2) 1 [0] [((0 : ℝ), (1 / 2 : ℝ))] [0] [] hrands hstartmem hrun⟩

/-- C10: for every rule, a `play` call begins its point chain from the stored
start point rather than from the last visited point: even after an earlier
`play(k)` call, the first point appended by the next call is the scaled sum
of `self.start` and the first chosen vertex.  (In the model this is
structural: each `_rX_play` re-reads `self.start`, so the appended points of
a call do not depend on the points accumulated by earlier calls at all.) -/
theorem C10_play_restarts_from_start (rule : String)
    (hrule : rule = "r0" ∨ rule = "r1" ∨ rule = "r2" ∨ rule = "r3" ∨ rule = "r4")
    (shape : Int) ( ratio : α) (vertices : List (α × α)) (start : α × α)
    (k : Nat) (rands : List Int) (pts0 : List (α × α)) (cs0 rest0 : List Int)
    (j : Nat) (hj : 1 ≤ j) (pts : List (α × α)) (cs rest : List Int)
    (h0 : play rule shape ratio vertices start k rands = some (pts0, cs0, rest0))
    (h : play rule shape ratio vertices start j rest0 = some (pts, cs, rest)) :
    pts.getD 0 (0, 0) = get_mid_point ratio start (vertex_at vertices (cs.getD 0 0)) := by
  obtain ⟨-, -, hrel⟩ := play_spec rule hrule shape ratio vertices start j rest0 pts cs rest h
  have h00 := hrel 0 (by omega)
  simpa using h00

/-- Witness for C10: after a one-iteration r0 call, the next call's first
appended point is computed from the start `(0, 0)`, not from the previous
point `(0, 1)`. -/
theorem C10_play_restarts_from_start_witness :
    play "r0" 3 (1 : Int) [(0, 1), (2, 3), (4, 5)] (0, 0) 1 [0, 1] =
      some ([(0, 1)], [0], [1]) ∧
    play "r0" 3 (1 : Int) [(0, 1), (2, 3), (4, 5)] (0, 0) 1 [1] =
      some ([(2, 3)], [1], []) ∧
    ([((2 : Int), (3 : Int))]).getD 0 (0, 0) =
      get_mid_point (1 : Int) (0, 0) (vertex_at [(0, 1), (2, 3), (4, 5)] (([1] : List Int).getD 0 0)) :=
  ⟨by decide, by decide,
   C10_play_restarts_from_start "r0" (Or.inl rfl) 3 1 [(0, 1), (2, 3), (4, 5)] (0, 0)
     1 [0, 1] [(0, 1)] [0] [1] 1 (by norm_num) [(2, 3)] [1] [] (by decide) (by decide)⟩

end ChaosGame
